import Mathlib

/-!
Shallow embedding of the adaptive Kalman-filter CPU-prediction model
(`demo/models/kalman-filter/model.py`) and proofs about its numerical
safeguards, adaptation gating, preprocessing and serving contract.

Matrices are embedded over an arbitrary linear ordered field; witnesses are
evaluated over `ℚ` and the determinism development is instantiated at `ℝ`.
The numerical-library primitives with no closed form inside the model —
`np.linalg.eigh` (orthogonal eigendecomposition) and `np.linalg.eigvalsh`'s
minimum eigenvalue — are treated as oracles: theorems quantify over any
decomposition satisfying the defining equations (`IsEigh`, `IsMinEig`).
-/

set_option maxHeartbeats 1000000

namespace KalmanSpec

open Matrix

abbrev Mat5 (α : Type) := Matrix (Fin 5) (Fin 5) α

abbrev Mat3 (α : Type) := Matrix (Fin 3) (Fin 3) α

abbrev Vec5 (α : Type) := Fin 5 → α

abbrev Vec3 (α : Type) := Fin 3 → α

section Defs

variable (α : Type) [LinearOrderedField α]

/-- model.py line 53: `self.min_variance = 1e-6`. -/
def min_variance : α := 1/1000000

/-- model.py line 52: `self.max_variance = 10.0`. -/
def max_variance : α := 10

/-- model.py line 54: `self.variance_reset_threshold = 100.0`. -/
def variance_reset_threshold : α := 100

/-- model.py line 57: `self.max_process_noise = 0.1`. -/
def max_process_noise : α := 1/10

/-- model.py line 58: `self.min_process_noise = 1e-6`. -/
def min_process_noise : α := 1/1000000

/-- model.py line 61: `self.missing_value_threshold = 0.15`. -/
def missing_value_threshold : ℚ := 3/20

variable {α}

/-- Elementwise clamp, the semantics of `np.clip(x, lo, hi)` for `lo ≤ hi`
(`np.minimum(hi, np.maximum(x, lo))`). -/
def clip (x lo hi : α) : α := min (max x lo) hi

/-- `np.clip` applied entrywise to a 5×5 matrix (model.py lines 197, 349). -/
def clipM (M : Mat5 α) (lo hi : α) : Mat5 α := Matrix.of fun i j => clip (M i j) lo hi

/-- Symmetrization `0.5 * (M + M.T)` (model.py lines 201, 353). -/
def symmetrize (M : Mat5 α) : Mat5 α := (2 : α)⁻¹ • (M + Mᵀ)

variable (α)

/-- State transition matrix `F` (model.py lines 81–87, with `dt = 1.0`). -/
def Fmat : Mat5 α :=
  !![1, 1, 1/10, 1/20, 3/100;
     0, 19/20, 1/20, 1/50, 1/100;
     1/5, 0, 19/20, 1/10, 1/20;
     3/20, 1/20, 1/10, 9/10, 1/10;
     1/10, 1/50, 1/20, 3/20, 23/25]

/-- Measurement matrix `H` (model.py lines 91–95). -/
def Hmat : Matrix (Fin 3) (Fin 5) α :=
  !![4/5, 1/10, 0, 1/10, 0;
     0, 0, 1, 0, 0;
     0, 0, 0, 1, 0]

/-- Initial process noise `Q` (model.py lines 99–101):
`eye(5)*0.001` with `Q[1,1] = 0.0001` and `Q[4,4] = 0.01`. -/
def Q0 : Mat5 α := Matrix.diagonal ![1/1000, 1/10000, 1/1000, 1/1000, 1/100]

/-- Initial measurement noise `R = diag([0.01, 0.01, 0.05])` (model.py line 105). -/
def R0 : Mat3 α := Matrix.diagonal ![1/100, 1/100, 1/20]

/-- Initial state covariance `P = eye(5) * 1.0` (model.py line 109). -/
def P0 : Mat5 α := 1

/-- Initial state vector (model.py lines 112–118). -/
def x0 : Vec5 α := ![3/10, 0, 1/2, 1, 0]

variable {α}

/-- Variance-explosion reset (model.py lines 344–346): if the freshly
extracted `prediction_variance = P[0,0]` exceeds the threshold, `P` is reset
to `eye(5)` and the reported variance to `1.0`. -/
def resetStep (P : Mat5 α) (pv : α) : Mat5 α × α :=
  if variance_reset_threshold α < pv then (1, 1) else (P, pv)

/-- The matrix handed to `np.linalg.eigh` on a tick (model.py lines 344–353):
the post-update covariance after the reset check, the elementwise clip to
`[min_variance, max_variance]` and symmetrization. -/
def hardenInput (P : Mat5 α) : Mat5 α :=
  symmetrize (clipM (resetStep P (P 0 0)).1 (min_variance α) (max_variance α))

/-- Oracle predicate for `np.linalg.eigh M = (d, V)`: `V` is orthogonal and
`M = V @ diag(d) @ V.T`. -/
def IsEigh (M V : Mat5 α) (d : Vec5 α) : Prop :=
  Vᵀ * V = 1 ∧ M = V * Matrix.diagonal d * Vᵀ

/-- Reconstruction with clipped eigenvalues (model.py lines 354–356):
`eigvecs @ diag(clip(eigvals, min_variance, max_variance)) @ eigvecs.T`.
This is the state covariance at the end of a tick. -/
def eighRecon (V : Mat5 α) (d : Vec5 α) : Mat5 α :=
  V * Matrix.diagonal (fun i => clip (d i) (min_variance α) (max_variance α)) * Vᵀ

/-- The `prediction_variance` value emitted for a tick whose post-update
covariance is `P` (model.py lines 338, 344–346, 350). -/
def emittedVariance (P : Mat5 α) : α :=
  clip (resetStep P (P 0 0)).2 (min_variance α) (max_variance α)

/-- A rational orthogonal symmetric matrix (the Householder reflection
`I - v vᵀ/12` for `v = (3,-1,-1,-2,-3)`), used as a concrete
eigendecomposition oracle in witnesses. Its first column is `(1,1,1,2,3)/4`. -/
def Vh : Mat5 ℚ :=
  !![1/4, 1/4, 1/4, 1/2, 3/4;
     1/4, 11/12, -1/12, -1/6, -1/4;
     1/4, -1/12, 11/12, -1/6, -1/4;
     1/2, -1/6, -1/6, 2/3, -1/2;
     3/4, -1/4, -1/4, -1/2, 1/4]

/-- Eigenvalues for the confirmation witness: all inside
`[min_variance, max_variance]`. -/
def dWit : Vec5 ℚ := ![2, 1, 1, 1, 1]

/-- A concrete post-update covariance whose hardening pipeline is fully
rational: `MWit = I + w wᵀ` for the unit vector `w = (1,1,1,2,3)/4`. -/
def MWit : Mat5 ℚ := Vh * Matrix.diagonal dWit * Vhᵀ

/-- Eigenvalues for the elementwise-bounds counterexample: `11` is above
`max_variance` and is clipped to `10` by the reconstruction. -/
def dCex : Vec5 ℚ := ![11, 100999856/11000000, 1, 1, 1]

/-- A concrete post-update covariance with all entries inside
`[min_variance, max_variance]` (so the reset, elementwise clip and
symmetrization leave it unchanged; its `(1,2)` entry equals `min_variance`
exactly) whose top eigenvalue `11` exceeds `max_variance`: clipping that
eigenvalue drags the reconstructed entry `(1,2)` below `min_variance`. -/
def MCex : Mat5 ℚ := Vh * Matrix.diagonal dCex * Vhᵀ

/-- A concrete post-update covariance that trips the variance-explosion
reset: its `(0,0)` entry is `200 > variance_reset_threshold`. -/
def PBig : Mat5 ℚ := Matrix.of fun _ _ => 200

/-- Projection of the per-tick adaptation gating state (model.py lines 329,
332–333, 376–378 and 172–173): the observation counter, the innovation
window length (a deque of capacity 50 appended once per tick), and the two
noise matrices. -/
structure GateState (α : Type) where
  count : ℕ
  wlen : ℕ
  q : Mat5 α
  r : Mat3 α

variable (α)

/-- Gating state after `load()`: zero observations, empty window, seed
noise matrices. -/
def gateInit : GateState α := ⟨0, 0, Q0 α, R0 α⟩

variable {α}

/-- One tick's effect on the gating state, with the body of the adaptation
(everything in `_update_adaptive_noise` below its early return) abstracted
as `adapt`: the counter is incremented (line 329), the innovation window
grows up to its capacity 50 (line 333), and `_update_adaptive_noise` is
invoked only when `observation_count % 10 == 0` (line 377); it returns
without touching `Q`/`R` when the window holds fewer than 20 entries
(lines 172–173). -/
def gateTick (adapt : GateState α → Mat5 α × Mat3 α) (s : GateState α) :
    GateState α :=
  if (s.count + 1) % 10 = 0 then
    if min (s.wlen + 1) 50 < 20 then ⟨s.count + 1, min (s.wlen + 1) 50, s.q, s.r⟩
    else
      ⟨s.count + 1, min (s.wlen + 1) 50,
        (adapt ⟨s.count + 1, min (s.wlen + 1) 50, s.q, s.r⟩).1,
        (adapt ⟨s.count + 1, min (s.wlen + 1) 50, s.q, s.r⟩).2⟩
  else ⟨s.count + 1, min (s.wlen + 1) 50, s.q, s.r⟩

/-- The gating state after `n` ticks from a freshly loaded model. -/
def gateRun (adapt : GateState α → Mat5 α × Mat3 α) (n : ℕ) : GateState α :=
  (gateTick adapt)^[n] (gateInit α)

/-- Empirical covariance `np.cov(innovations.T)` of the windowed innovations
(model.py lines 176–177); `np.cov` uses the `N - 1` normalization. -/
def empCov (ws : List (Vec3 α)) : Mat3 α :=
  Matrix.of fun i j =>
    ((ws.map fun w => (w i - (ws.map fun v => v i).sum / (ws.length : α)) *
        (w j - (ws.map fun v => v j).sum / (ws.length : α))).sum) /
      ((ws.length : α) - 1)

/-- Mean absolute innovation `np.abs(self.filter.y).mean()` (line 190). -/
def meanAbs (y : Vec3 α) : α := (|y 0| + |y 1| + |y 2|) / 3

/-- Process-noise scaling by prediction error (model.py lines 189–194):
grow by 1.05 above 0.1, shrink by 0.98 below 0.05, otherwise unchanged. -/
def adaptScaleQ (Q : Mat5 α) (y : Vec3 α) : Mat5 α :=
  if 1/10 < meanAbs y then (21/20 : α) • Q
  else if meanAbs y < 1/20 then (49/50 : α) • Q else Q

/-- The process noise after scaling, elementwise clipping to
`[min_process_noise, max_process_noise]` (line 197) and symmetrization
(line 201); this is the matrix handed to `np.linalg.eigvalsh` (line 202). -/
def adaptQ3 (Q : Mat5 α) (y : Vec3 α) : Mat5 α :=
  symmetrize (clipM (adaptScaleQ Q y) (min_process_noise α) (max_process_noise α))

/-- The final eigenvalue-floor shift on `Q` (model.py lines 202–204):
`Q += (min_process_noise - min(eigvals)) * eye(5)` when the smallest
eigenvalue `lam` is below `min_process_noise`. -/
def qShift (Q : Mat5 α) (lam : α) : Mat5 α :=
  if lam < min_process_noise α then
    Q + (min_process_noise α - lam) • (1 : Mat5 α)
  else Q

/-- Measurement-noise blending `R = 0.9*R + 0.1*innovation_cov`
(model.py lines 185–186; the numpy shape check at line 183 always holds for
a window of 3-vectors with at least two entries). -/
def blendR (R C : Mat3 α) : Mat3 α := (9/10 : α) • R + (1/10 : α) • C

/-- `np.maximum(R, min_variance * np.eye(3))` (model.py line 198): the
diagonal is floored at `min_variance` but off-diagonal entries are only
floored at `0`, the off-diagonal entries of `min_variance * eye(3)`. -/
def floorR (R : Mat3 α) : Mat3 α :=
  Matrix.of fun i j => max (R i j) (if i = j then min_variance α else 0)

/-- `_update_adaptive_noise` (model.py lines 168–204), with the minimum
eigenvalue reported by `np.linalg.eigvalsh` passed as `lam`: early return
when the window holds fewer than 20 innovations, otherwise revise `R`
(blend, then elementwise maximum) and `Q` (scale, clip, symmetrize, then
eigenvalue-floor shift). -/
def updateAdaptiveNoise (win : List (Vec3 α)) (Q : Mat5 α) (R : Mat3 α)
    (y : Vec3 α) (lam : α) : Mat5 α × Mat3 α :=
  if win.length < 20 then (Q, R)
  else (qShift (adaptQ3 Q y) lam, floorR (blendR R (empCov win)))

/-- Oracle predicate for `np.min(np.linalg.eigvalsh M) = lam`: `lam` is an
eigenvalue of `M` and no eigenvalue is smaller. -/
def IsMinEig (M : Mat5 α) (lam : α) : Prop :=
  (∃ v : Vec5 α, v ≠ 0 ∧ M *ᵥ v = lam • v) ∧
    (∀ (μ : α) (v : Vec5 α), v ≠ 0 → M *ᵥ v = μ • v → lam ≤ μ)

/-- A full innovation window of 20 zero innovations. -/
def win20 : List (Vec3 ℚ) := List.replicate 20 (fun _ => 0)

/-- A measurement-noise matrix whose blend with a zero innovation
covariance produces an off-diagonal entry `1` and diagonal `0`. -/
def rBad : Mat3 ℚ := !![0, 10/9, 0; 10/9, 0, 0; 0, 0, 0]

/-- A process-noise matrix with every entry `0.1 = max_process_noise`; it
is singular (the all-equal matrix has rank one), so the eigenvalue-floor
shift fires on it. -/
def qFlat : Mat5 ℚ := Matrix.of fun _ _ => 1/10

/-- An innovation with mean absolute value `0.07`, inside `[0.05, 0.1]`, so
the process-noise scaling leaves `Q` unchanged. -/
def yMid : Vec3 ℚ := ![7/100, 7/100, 7/100]

/-- An eigenvector of `qFlat` with eigenvalue `0`. -/
def vDiff : Vec5 ℚ := ![1, -1, 0, 0, 0]

/-- An eigenvector of the revised measurement noise `floorR (0.9 • rBad)`
with eigenvalue `min_variance - 1 < 0`. -/
def vDiff3 : Vec3 ℚ := ![1, -1, 0]

/-- Number of missing entries, `np.isnan(arr).sum()` (model.py line 129);
a series is a list of optional values, `none` standing for `NaN`. -/
def nanCount (xs : List (Option ℚ)) : ℕ := (xs.filter Option.isNone).length

/-- Mean over the valid entries, `np.nanmean(arr)` (model.py line 137).
(For an all-`NaN` series numpy returns `NaN` while this model returns `0`;
no claim depends on that case.) -/
def nanmean (xs : List (Option ℚ)) : ℚ :=
  (xs.filterMap id).sum / ((xs.filterMap id).length : ℚ)

/-- Forward fill with carried last valid value, the list form of the numpy
idiom at model.py lines 131–134 (`idx = where(~mask, arange(n), 0)`;
`np.maximum.accumulate(idx)`; `arr[idx]`): each position gets the last valid
value at or before it, and positions before the first valid value get
`arr[0]` — which is itself invalid there, so leading gaps stay missing. -/
def ffillGo : Option ℚ → List (Option ℚ) → List (Option ℚ)
  | _, [] => []
  | cur, none :: t => cur :: ffillGo cur t
  | _, some v :: t => some v :: ffillGo (some v) t

/-- Forward fill of a whole series (initially no valid value is carried). -/
def ffill (xs : List (Option ℚ)) : List (Option ℚ) := ffillGo none xs

/-- `fill_missing` (model.py lines 128–137): forward-fill when the missing
fraction is below `missing_value_threshold`, otherwise replace every missing
entry with the mean of the valid entries. -/
def fill_missing (xs : List (Option ℚ)) : List (Option ℚ) :=
  if (nanCount xs : ℚ) / (xs.length : ℚ) < missing_value_threshold then ffill xs
  else xs.map fun a => some (a.getD (nanmean xs))

/-- A 20-element series with a single leading `NaN` (5% missing). -/
def xsCex : List (Option ℚ) := none :: List.replicate 19 (some 1)

/-- The tail of a 7-element witness series with one interior `NaN`. -/
def tWit : List (Option ℚ) := [some 2, none, some 3, some 4, some 5, some 6]

/-- Mean over the full series, `np.mean(arr)` (model.py line 145). -/
def meanL (xs : List α) : α := xs.sum / (xs.length : α)

/-- Population variance, the square of `np.std(arr)` (model.py line 146). -/
def varL (xs : List α) : α :=
  ((xs.map fun x => (x - meanL xs) ^ 2).sum) / (xs.length : α)

/-- `cap_outliers` (model.py lines 144–149) with the standard deviation
`s = np.std(arr)` passed as a parameter (theorems constrain it by
`s ^ 2 = varL arr` and `0 ≤ s`): clip every element to
`[mean - 3*std, mean + 3*std]`. -/
def capOutliersWith (s : α) (xs : List α) : List α :=
  xs.map fun x => clip x (meanL xs - 3 * s) (meanL xs + 3 * s)

/-- The domain clamp applied after outlier capping (model.py lines 152–154):
`np.clip(series, lo, hi)` with `[0,1]` for CPU and memory, `[0,100]` for the
load average. -/
def clampSeries (lo hi : α) (xs : List α) : List α := xs.map fun x => clip x lo hi

variable (α)

/-- The outlier-capping example series from the spec. -/
def spec8 : List α := [1/2, 1/2, 10, 1/2, -5]

/-- A constant series: its standard deviation is `0`, so the cap interval
`[mean - 3s, mean + 3s]` collapses to `{5}`, disjoint from `[0,1]`. -/
def allFives : List α := [5, 5, 5, 5, 5]

variable {α}

/-- The five output values computed per tick (model.py lines 336–374):
`cpu_prediction`, `prediction_variance`, `innovation`, `cpu_trend`,
`model_confidence`. -/
structure TickOut (α : Type) where
  cpu : α
  variance : α
  innovation : α
  trend : α
  confidence : α

/-- The full mutable state of the model instance: the `initialized` flag,
the filterpy state (`x`, `P`, `Q`, `R`), the innovation window, and the
observation counter (model.py lines 38–49, 96–120). -/
structure KState (α : Type) where
  initialized : Bool
  x : Vec5 α
  P : Mat5 α
  q : Mat5 α
  r : Mat3 α
  win : List (Vec3 α)
  count : ℕ

variable (α)

/-- The state right after `load()` → `_setup_kalman_filter()` (model.py
lines 64–120). -/
def initState : KState α := ⟨true, x0 α, P0 α, Q0 α, R0 α, [], 0⟩

variable {α}

/-- Modelled from the spec: `np.linalg.inv` (used by the external filterpy
update for `S⁻¹`) via the adjugate formula; exact for invertible `S`. -/
def inv3 (S : Mat3 α) : Mat3 α := (S.det)⁻¹ • S.adjugate

/-- `deque.append` with `maxlen=50` (model.py lines 47, 333): append the
innovation, evicting the oldest entry when the window is full. -/
def pushWin (win : List (Vec3 α)) (y : Vec3 α) : List (Vec3 α) :=
  if win.length < 50 then win ++ [y] else win.tail ++ [y]

/-- `_estimate_context_switches` (model.py lines 158–166):
`clip(|cpu_trend| * load_avg * 0.1, 0, 1)`. -/
def estCtx (trend load : α) : α := clip (|trend| * load * (1/10)) 0 1

/-- The deterministic data computed by a tick before the eigendecomposition:
the innovation, the posterior state, the post-update covariance, the new
window and the new counter. -/
structure TickMid (α : Type) where
  y : Vec3 α
  x2 : Vec5 α
  p2 : Mat5 α
  win2 : List (Vec3 α)
  count2 : ℕ

/-- Modelled from the spec: one `filter.predict(); filter.update(z)` pair of
the external filterpy KalmanFilter (spec §4.3: `x ← F x`, `P ← F P Fᵀ + Q`;
`y = z - H x`, `S = H P Hᵀ + R`, `K = P Hᵀ S⁻¹`, `x ← x + K y`,
`P ← (I - K H) P`), together with the in-repository bookkeeping around it
(model.py lines 324–333): the counter increment and the window append. -/
def tickMid (s : KState α) (z : Vec3 α) : TickMid α :=
  let x1 := (Fmat α) *ᵥ s.x
  let p1 := Fmat α * s.P * (Fmat α)ᵀ + s.q
  let y := z - (Hmat α) *ᵥ x1
  let bigS := Hmat α * p1 * (Hmat α)ᵀ + s.r
  let K := p1 * (Hmat α)ᵀ * inv3 bigS
  ⟨y, x1 + K *ᵥ y, (1 - K * Hmat α) * p1, pushWin s.win y, s.count + 1⟩

/-- The rest of a tick (model.py lines 336–374) once the reconditioned
covariance `p5` (the `np.linalg.eigh` reconstruction) and the revised noise
pair `qr` are fixed: the emitted outputs and the end-of-tick state,
including the context-switch overwrite of `x[4]`. -/
def tickFinish (s : KState α) (z : Vec3 α) (sqrtO : α → α) (p5 : Mat5 α)
    (qr : Mat5 α × Mat3 α) : KState α × TickOut α :=
  let m := tickMid s z
  let pv := emittedVariance m.p2
  let innov := sqrtO (m.y ⬝ᵥ m.y)
  let conf := clip (1 / (1 + Matrix.trace p5 / 5 * (1/10) + innov * (1/10))) 0 1
  let x3 := Function.update m.x2 4 (estCtx (m.x2 1) (z 2))
  (⟨s.initialized, x3, p5, qr.1, qr.2, m.win2, m.count2⟩,
    ⟨clip (m.x2 0) 0 1, pv, innov, m.x2 1, conf⟩)

/-- The noise pair chosen by the end of a tick (model.py lines 376–378):
when the observation counter is a multiple of 10 and the window holds at
least 20 innovations, `_update_adaptive_noise` runs with some minimum
eigenvalue reported by `np.linalg.eigvalsh`; otherwise `Q`/`R` are
unchanged. -/
def AdaptChoice (s : KState α) (z : Vec3 α) (qr : Mat5 α × Mat3 α) : Prop :=
  if (tickMid s z).count2 % 10 = 0 ∧ 20 ≤ (tickMid s z).win2.length then
    ∃ lam, IsMinEig (adaptQ3 s.q (tickMid s z).y) lam ∧
      qr = updateAdaptiveNoise (tickMid s z).win2 s.q s.r (tickMid s z).y lam
  else qr = (s.q, s.r)

/-- One tick of the per-observation loop (model.py lines 316–378), with the
two eigendecomposition oracles chosen relationally and the square root used
by `np.linalg.norm` passed as a fixed function `sqrtO`. -/
inductive TickRel {α : Type} [LinearOrderedField α] (sqrtO : α → α)
    (s : KState α) (z : Vec3 α) : KState α × TickOut α → Prop where
  | step (V : Mat5 α) (d : Vec5 α) (qr : Mat5 α × Mat3 α)
      (hE : IsEigh (hardenInput (tickMid s z).p2) V d)
      (hA : AdaptChoice s z qr) :
      TickRel sqrtO s z (tickFinish s z sqrtO (eighRecon V d) qr)

/-- The in-order processing of a batch's measurement sequence
(model.py lines 316–378). -/
inductive TicksRel {α : Type} [LinearOrderedField α] (sqrtO : α → α) :
    KState α → List (Vec3 α) → KState α × List (TickOut α) → Prop where
  | nil (s : KState α) : TicksRel sqrtO s [] (s, [])
  | cons (s : KState α) (z : Vec3 α) (zs : List (Vec3 α)) (s1 : KState α)
      (o1 : TickOut α) (s2 : KState α) (os : List (TickOut α)) :
      TickRel sqrtO s z (s1, o1) → TicksRel sqrtO s1 zs (s2, os) →
      TicksRel sqrtO s (z :: zs) (s2, o1 :: os)

/-- The two error kinds raised by `predict` before any state mutation:
`RuntimeError("Kalman filter not initialized")` (line 278) and
`ValueError("Expected 3 inputs, got ...")` (line 302). -/
inductive PredictError where
  | uninitialized
  | arity

/-- Preprocessing of one series (model.py lines 143–154) on `NaN`-free
input: outlier capping at `mean ± 3*std` (with `std = sqrtO (varL xs)`)
followed by the domain clamp. (`fill_missing` is the identity on a
`NaN`-free series and is omitted here; the batch model carries plain
numeric values.) -/
def preprocessSeries (sqrtO : α → α) (lo hi : α) (xs : List α) : List α :=
  clampSeries lo hi (capOutliersWith (sqrtO (varL xs)) xs)

/-- Assembly of the per-tick measurement vectors from the three
preprocessed series (model.py lines 316–322). -/
def mkMeas (c m l : List α) : List (Vec3 α) :=
  (List.range c.length).map fun i => ![c.getD i 0, m.getD i 0, l.getD i 0]

/-- One `predict(payload)` call (model.py lines 267–403): the
initialization check, the input-arity check, and the processing of the
three series. On either error the estimator state is returned untouched. -/
inductive PredictRel {α : Type} [LinearOrderedField α] (sqrtO : α → α)
    (s : KState α) : List (List α) →
    KState α × Except PredictError (List (TickOut α)) → Prop where
  | uninit (ins : List (List α)) (h : s.initialized = false) :
      PredictRel sqrtO s ins (s, .error .uninitialized)
  | arity (ins : List (List α)) (h : s.initialized = true) (hn : ins.length ≠ 3) :
      PredictRel sqrtO s ins (s, .error .arity)
  | ok (c m l : List α) (s2 : KState α) (os : List (TickOut α))
      (h : s.initialized = true)
      (hT : TicksRel sqrtO s
        (mkMeas (preprocessSeries sqrtO 0 1 c) (preprocessSeries sqrtO 0 1 m)
          (preprocessSeries sqrtO 0 100 l)) (s2, os)) :
      PredictRel sqrtO s [c, m, l] (s2, .ok os)

/-- A sequence of `predict` calls against one model instance; the state
persists across calls. -/
inductive SeqRel {α : Type} [LinearOrderedField α] (sqrtO : α → α) :
    KState α → List (List (List α)) →
    KState α × List (Except PredictError (List (TickOut α))) → Prop where
  | nil (s : KState α) : SeqRel sqrtO s [] (s, [])
  | cons (s : KState α) (b : List (List α)) (bs : List (List (List α)))
      (s1 : KState α) (res : Except PredictError (List (TickOut α)))
      (s2 : KState α) (rs : List (Except PredictError (List (TickOut α)))) :
      PredictRel sqrtO s b (s1, res) → SeqRel sqrtO s1 bs (s2, rs) →
      SeqRel sqrtO s (b :: bs) (s2, res :: rs)

/-- An uninitialized model instance (`initialized = False`, before
`load()`). -/
def sUninit : KState ℚ := { initState ℚ with initialized := false }

end Defs

section CovarianceLemmas

variable {α : Type} [LinearOrderedField α]

lemma clip_le_hi (x lo hi : α) : clip x lo hi ≤ hi := min_le_right _ _

lemma lo_le_clip (x : α) {lo hi : α} (h : lo ≤ hi) : lo ≤ clip x lo hi :=
  le_min (le_max_right _ _) h

lemma clip_eq_self {x lo hi : α} (h1 : lo ≤ x) (h2 : x ≤ hi) : clip x lo hi = x := by
  rw [clip, max_eq_left h1, min_eq_left h2]

lemma min_variance_le_max_variance : min_variance α ≤ max_variance α := by
  unfold min_variance max_variance; norm_num

/-- Any `V diag(c) Vᵀ` sandwich is symmetric. -/
lemma sandwich_transpose (V : Mat5 α) (c : Vec5 α) :
    (V * Matrix.diagonal c * Vᵀ)ᵀ = V * Matrix.diagonal c * Vᵀ := by
  rw [Matrix.transpose_mul, Matrix.transpose_mul, Matrix.transpose_transpose,
    Matrix.diagonal_transpose, Matrix.mul_assoc]

lemma eighRecon_transpose (V : Mat5 α) (d : Vec5 α) :
    (eighRecon V d)ᵀ = eighRecon V d := sandwich_transpose V _

/-- Quadratic form of a sandwich `V diag(c) Vᵀ` in terms of the rotated
vector `u = Vᵀ v`. -/
lemma sandwich_quadform (V : Mat5 α) (c : Vec5 α) (v : Vec5 α) :
    v ⬝ᵥ (V * Matrix.diagonal c * Vᵀ) *ᵥ v =
      ∑ i, c i * (Vᵀ *ᵥ v) i ^ 2 := by
  rw [show V * Matrix.diagonal c * Vᵀ = V * (Matrix.diagonal c * Vᵀ) from
    Matrix.mul_assoc _ _ _]
  rw [← Matrix.mulVec_mulVec, ← Matrix.mulVec_mulVec, Matrix.dotProduct_mulVec,
    ← Matrix.mulVec_transpose]
  rw [dotProduct, Fin.sum_univ_five]
  simp only [Matrix.mulVec_diagonal]
  rw [Fin.sum_univ_five]
  ring

/-- Rotation by an orthogonal matrix preserves the sum of squares. -/
lemma sandwich_sq_sum (V : Mat5 α) (hV : Vᵀ * V = 1) (v : Vec5 α) :
    ∑ i, (Vᵀ *ᵥ v) i ^ 2 = v ⬝ᵥ v := by
  have hVVt : V * Vᵀ = 1 := Matrix.mul_eq_one_comm.mp hV
  have h1 : ∑ i, (Vᵀ *ᵥ v) i ^ 2 = (Vᵀ *ᵥ v) ⬝ᵥ (Vᵀ *ᵥ v) := by
    rw [dotProduct]; congr 1; funext i; ring
  rw [h1, Matrix.dotProduct_mulVec, ← Matrix.mulVec_transpose,
    Matrix.transpose_transpose, Matrix.mulVec_mulVec, hVVt, Matrix.one_mulVec]

lemma dotProduct_self_pos {v : Vec5 α} (hv : v ≠ 0) : 0 < v ⬝ᵥ v := by
  rcases lt_or_eq_of_le (Finset.sum_nonneg fun i _ => mul_self_nonneg (v i)) with h | h
  · exact h
  · exact absurd (dotProduct_self_eq_zero.mp h.symm) hv

/-- Two-sided quadratic-form bounds for the reconditioned covariance: for
any orthogonal decomposition, `min_variance ≤ vᵀ P' v / vᵀv ≤ max_variance`. -/
lemma eighRecon_quadform_bounds (V : Mat5 α) (d : Vec5 α) (hV : Vᵀ * V = 1)
    (v : Vec5 α) :
    min_variance α * (v ⬝ᵥ v) ≤ v ⬝ᵥ (eighRecon V d) *ᵥ v ∧
      v ⬝ᵥ (eighRecon V d) *ᵥ v ≤ max_variance α * (v ⬝ᵥ v) := by
  have hq := sandwich_quadform V
    (fun i => clip (d i) (min_variance α) (max_variance α)) v
  have hs := sandwich_sq_sum V hV v
  constructor
  · rw [eighRecon, hq, ← hs, Finset.mul_sum]
    refine Finset.sum_le_sum fun i _ => ?_
    exact mul_le_mul_of_nonneg_right
      (lo_le_clip _ min_variance_le_max_variance) (sq_nonneg _)
  · rw [eighRecon, hq, ← hs, Finset.mul_sum]
    refine Finset.sum_le_sum fun i _ => ?_
    exact mul_le_mul_of_nonneg_right (clip_le_hi _ _ _) (sq_nonneg _)

/-- If a symmetric matrix with entries inside the variance band is fed to
the hardening pipeline, the reset, clip and symmetrization leave it
unchanged. -/
lemma hardenInput_of_fixed {P : Mat5 α} (hs : Pᵀ = P)
    (hb : ∀ i j, min_variance α ≤ P i j ∧ P i j ≤ max_variance α) :
    hardenInput P = P := by
  have h00 : ¬ variance_reset_threshold α < P 0 0 := by
    refine not_lt.mpr (le_trans (hb 0 0).2 ?_)
    unfold max_variance variance_reset_threshold; norm_num
  have hr : resetStep P (P 0 0) = (P, P 0 0) := by rw [resetStep, if_neg h00]
  have hc : clipM P (min_variance α) (max_variance α) = P := by
    ext i j
    exact clip_eq_self (hb i j).1 (hb i j).2
  rw [hardenInput, hr]
  show symmetrize (clipM P _ _) = P
  rw [hc, symmetrize, hs, ← two_smul α P, smul_smul]
  norm_num

lemma vh_symm : Vhᵀ = Vh := by
  ext i j
  fin_cases i <;> fin_cases j <;>
    simp [Vh, Matrix.transpose_apply, Matrix.cons_val_zero, Matrix.cons_val_one,
      Matrix.cons_val_two, Matrix.cons_val_three, Matrix.cons_val_four,
      Matrix.head_cons, Matrix.tail_cons]

lemma vh_orthogonal : Vhᵀ * Vh = 1 := by
  rw [vh_symm]
  ext i j
  fin_cases i <;> fin_cases j <;>
    norm_num [Vh, Matrix.mul_apply, Matrix.one_apply, Fin.sum_univ_five, Fin.ext_iff,
      Matrix.cons_val_zero, Matrix.cons_val_one, Matrix.cons_val_two,
      Matrix.cons_val_three, Matrix.cons_val_four, Matrix.head_cons, Matrix.tail_cons]

lemma mwit_bounds : ∀ i j, min_variance ℚ ≤ MWit i j ∧ MWit i j ≤ max_variance ℚ := by
  have h : MWit = Vh * Matrix.diagonal dWit * Vh := by unfold MWit; rw [vh_symm]
  intro i j
  rw [h]
  fin_cases i <;> fin_cases j <;>
    norm_num [Vh, dWit, min_variance, max_variance, Matrix.mul_apply,
      Matrix.vecMul_diagonal, Fin.sum_univ_five,
      Matrix.cons_val_zero, Matrix.cons_val_one, Matrix.cons_val_two,
      Matrix.cons_val_three, Matrix.cons_val_four, Matrix.head_cons, Matrix.tail_cons]

lemma mwit_eigh : IsEigh (hardenInput MWit) Vh dWit := by
  have hs : MWitᵀ = MWit := sandwich_transpose Vh dWit
  rw [hardenInput_of_fixed hs mwit_bounds]
  exact ⟨vh_orthogonal, rfl⟩

end CovarianceLemmas

section ClaimC1

variable {α : Type} [LinearOrderedField α]

/-- C1. After the predict+update tick and its post-update hardening steps
(model.py lines 343–356), for any orthogonal eigendecomposition returned by
`np.linalg.eigh`, the final state covariance is symmetric, every eigenvalue
of it is at least `min_variance`, and the emitted `prediction_variance` lies
in `[min_variance, max_variance]`. -/
theorem tick_covariance_invariants (P V : Mat5 α) (d : Vec5 α)
    (h : IsEigh (hardenInput P) V d) :
    (eighRecon V d)ᵀ = eighRecon V d ∧
      (∀ (μ : α) (v : Vec5 α), v ≠ 0 → (eighRecon V d) *ᵥ v = μ • v →
        min_variance α ≤ μ) ∧
      min_variance α ≤ emittedVariance P ∧ emittedVariance P ≤ max_variance α := by
  refine ⟨eighRecon_transpose V d, ?_, ?_, clip_le_hi _ _ _⟩
  · intro μ v hv he
    have hb := (eighRecon_quadform_bounds V d h.1 v).1
    rw [he] at hb
    have hvv : v ⬝ᵥ (μ • v) = μ * (v ⬝ᵥ v) := by
      rw [dotProduct_smul, smul_eq_mul]
    rw [hvv] at hb
    exact le_of_mul_le_mul_right hb (dotProduct_self_pos hv)
  · exact lo_le_clip _ min_variance_le_max_variance

/-- Witness for C1 at a concrete covariance and a concrete rational
orthogonal eigendecomposition. -/
theorem tick_covariance_invariants_witness :
    IsEigh (hardenInput MWit) Vh dWit ∧
      ((eighRecon Vh dWit)ᵀ = eighRecon Vh dWit ∧
        (∀ (μ : ℚ) (v : Vec5 ℚ), v ≠ 0 → (eighRecon Vh dWit) *ᵥ v = μ • v →
          min_variance ℚ ≤ μ) ∧
        min_variance ℚ ≤ emittedVariance MWit ∧
          emittedVariance MWit ≤ max_variance ℚ) :=
  ⟨mwit_eigh, tick_covariance_invariants MWit Vh dWit mwit_eigh⟩

end ClaimC1

section ClaimC2

variable {α : Type} [LinearOrderedField α]

lemma entry_quadform (M : Mat5 α) (i j : Fin 5) :
    (Pi.single i 1 : Vec5 α) ⬝ᵥ M *ᵥ (Pi.single j 1) = M i j := by
  rw [Matrix.mulVec_single, single_dotProduct]
  simp

lemma add_single_quadform (M : Mat5 α) (i j : Fin 5) :
    (Pi.single i 1 + Pi.single j 1 : Vec5 α) ⬝ᵥ M *ᵥ (Pi.single i 1 + Pi.single j 1) =
      M i i + M i j + (M j i + M j j) := by
  rw [Matrix.mulVec_add, dotProduct_add, add_dotProduct, add_dotProduct,
    entry_quadform, entry_quadform, entry_quadform, entry_quadform]
  ring

lemma sub_single_quadform (M : Mat5 α) (i j : Fin 5) :
    (Pi.single i 1 - Pi.single j 1 : Vec5 α) ⬝ᵥ M *ᵥ (Pi.single i 1 - Pi.single j 1) =
      M i i - M i j - (M j i - M j j) := by
  rw [Matrix.mulVec_sub, dotProduct_sub, sub_dotProduct, sub_dotProduct,
    entry_quadform, entry_quadform, entry_quadform, entry_quadform]
  ring

lemma single_self_dot (i : Fin 5) :
    (Pi.single i 1 : Vec5 α) ⬝ᵥ (Pi.single i 1) = 1 := by
  rw [single_dotProduct]; simp

lemma add_single_self_dot {i j : Fin 5} (hij : i ≠ j) :
    (Pi.single i 1 + Pi.single j 1 : Vec5 α) ⬝ᵥ (Pi.single i 1 + Pi.single j 1) = 2 := by
  rw [dotProduct_add, add_dotProduct, add_dotProduct, single_dotProduct,
    single_dotProduct, single_dotProduct, single_dotProduct]
  simp [Pi.single_apply, hij, hij.symm]
  norm_num

lemma sub_single_self_dot {i j : Fin 5} (hij : i ≠ j) :
    (Pi.single i 1 - Pi.single j 1 : Vec5 α) ⬝ᵥ (Pi.single i 1 - Pi.single j 1) = 2 := by
  rw [dotProduct_sub, sub_dotProduct, sub_dotProduct, single_dotProduct,
    single_dotProduct, single_dotProduct, single_dotProduct]
  simp [Pi.single_apply, hij, hij.symm]
  norm_num

lemma mcex_bounds : ∀ i j, min_variance ℚ ≤ MCex i j ∧ MCex i j ≤ max_variance ℚ := by
  have h : MCex = Vh * Matrix.diagonal dCex * Vh := by unfold MCex; rw [vh_symm]
  intro i j
  rw [h]
  fin_cases i <;> fin_cases j <;>
    norm_num [Vh, dCex, min_variance, max_variance, Matrix.mul_apply,
      Matrix.vecMul_diagonal, Fin.sum_univ_five,
      Matrix.cons_val_zero, Matrix.cons_val_one, Matrix.cons_val_two,
      Matrix.cons_val_three, Matrix.cons_val_four, Matrix.head_cons, Matrix.tail_cons]

lemma mcex_eigh : IsEigh (hardenInput MCex) Vh dCex := by
  have hs : MCexᵀ = MCex := sandwich_transpose Vh dCex
  rw [hardenInput_of_fixed hs mcex_bounds]
  exact ⟨vh_orthogonal, rfl⟩

lemma mcex_recon_entry : eighRecon Vh dCex 1 2 < min_variance ℚ := by
  have hclip : (fun i => clip (dCex i) (min_variance ℚ) (max_variance ℚ)) =
      ![10, 100999856/11000000, 1, 1, 1] := by
    funext i
    fin_cases i <;>
      norm_num [clip, dCex, min_variance, max_variance, min_def, max_def,
        Matrix.cons_val_zero, Matrix.cons_val_one, Matrix.cons_val_two,
        Matrix.cons_val_three, Matrix.cons_val_four, Matrix.head_cons, Matrix.tail_cons]
  rw [eighRecon, hclip, vh_symm]
  norm_num [Vh, min_variance, Matrix.mul_apply, Matrix.vecMul_diagonal, Fin.sum_univ_five,
    Matrix.cons_val_zero, Matrix.cons_val_one, Matrix.cons_val_two,
    Matrix.cons_val_three, Matrix.cons_val_four, Matrix.head_cons, Matrix.tail_cons]

/-- C2, counterexample. It is not the case that after every tick all entries
of the reconditioned covariance lie within `[min_variance, max_variance]`:
at the concrete post-update covariance `MCex` (all of whose entries are
inside the band, so only the eigenvalue clip acts), clipping the eigenvalue
`11` down to `10` drags entry `(1,2)` of the reconstruction below
`min_variance` (it becomes `1/1000000 - 1/16 < 0`). -/
theorem covariance_elementwise_cex :
    ¬ (∀ (P V : Mat5 ℚ) (d : Vec5 ℚ), IsEigh (hardenInput P) V d →
        ∀ i j, min_variance ℚ ≤ eighRecon V d i j ∧
          eighRecon V d i j ≤ max_variance ℚ) := by
  intro h
  exact absurd (h MCex Vh dCex mcex_eigh 1 2).1 (not_le.mpr mcex_recon_entry)

/-- C2, amended. After the hardening steps of a tick, the *diagonal* entries
of the state covariance lie within `[min_variance, max_variance]`, and every
entry (off-diagonal included) has absolute value at most `max_variance`; the
elementwise lower bound `min_variance` can be violated off the diagonal by
the eigenvalue-clipping reconstruction, which runs after the elementwise
clip. -/
theorem covariance_bounds_after_recondition (P V : Mat5 α) (d : Vec5 α)
    (h : IsEigh (hardenInput P) V d) :
    (∀ i, min_variance α ≤ eighRecon V d i i ∧ eighRecon V d i i ≤ max_variance α) ∧
      (∀ i j, -(max_variance α) ≤ eighRecon V d i j ∧
        eighRecon V d i j ≤ max_variance α) := by
  have hdiag : ∀ i, min_variance α ≤ eighRecon V d i i ∧
      eighRecon V d i i ≤ max_variance α := by
    intro i
    have hb := eighRecon_quadform_bounds V d h.1 (Pi.single i 1)
    rw [entry_quadform, single_self_dot, mul_one, mul_one] at hb
    exact hb
  refine ⟨hdiag, fun i j => ?_⟩
  rcases eq_or_ne i j with rfl | hij
  · refine ⟨le_trans ?_ (hdiag i).1, (hdiag i).2⟩
    have h1 : (0 : α) ≤ min_variance α := by unfold min_variance; norm_num
    have h2 : (0 : α) ≤ max_variance α := by unfold max_variance; norm_num
    linarith
  · have hsymm : eighRecon V d j i = eighRecon V d i j := by
      conv_lhs => rw [← eighRecon_transpose V d]
      rw [Matrix.transpose_apply]
    have hp := eighRecon_quadform_bounds V d h.1 (Pi.single i 1 + Pi.single j 1)
    rw [add_single_quadform, add_single_self_dot hij, hsymm] at hp
    have hm := eighRecon_quadform_bounds V d h.1 (Pi.single i 1 - Pi.single j 1)
    rw [sub_single_quadform, sub_single_self_dot hij, hsymm] at hm
    have hii := hdiag i
    have hjj := hdiag j
    have h1 : (0 : α) ≤ min_variance α := by unfold min_variance; norm_num
    constructor <;> [linarith [hm.2, hii.1, hjj.1]; linarith [hp.2, hii.1, hjj.1]]

/-- Witness for the amended C2 at the concrete decomposition `MWit`. -/
theorem covariance_bounds_after_recondition_witness :
    IsEigh (hardenInput MWit) Vh dWit ∧
      ((∀ i, min_variance ℚ ≤ eighRecon Vh dWit i i ∧
          eighRecon Vh dWit i i ≤ max_variance ℚ) ∧
        (∀ i j, -(max_variance ℚ) ≤ eighRecon Vh dWit i j ∧
          eighRecon Vh dWit i j ≤ max_variance ℚ)) :=
  ⟨mwit_eigh, covariance_bounds_after_recondition MWit Vh dWit mwit_eigh⟩

end ClaimC2

section ClaimC3

variable {α : Type} [LinearOrderedField α]

/-- C3. If the post-update `P[0,0]` exceeds `variance_reset_threshold`, the
tick resets the covariance to the initial covariance `eye(5) * 1.0` (the
reset branch of model.py lines 344–346) and the `prediction_variance`
emitted for that tick is exactly the reset value `1.0` (the subsequent clip
at line 350 leaves `1.0` unchanged). -/
theorem variance_explosion_reset (P : Mat5 α)
    (h : variance_reset_threshold α < P 0 0) :
    (resetStep P (P 0 0)).1 = P0 α ∧ emittedVariance P = 1 := by
  constructor
  · rw [resetStep, if_pos h]; rfl
  · rw [emittedVariance, resetStep, if_pos h]
    show clip 1 (min_variance α) (max_variance α) = 1
    rw [clip_eq_self] <;> norm_num [min_variance, max_variance]

/-- Witness for C3 at the concrete covariance with all entries `200`. -/
theorem variance_explosion_reset_witness :
    variance_reset_threshold ℚ < PBig 0 0 ∧
      ((resetStep PBig (PBig 0 0)).1 = P0 ℚ ∧ emittedVariance PBig = 1) :=
  ⟨by norm_num [PBig, variance_reset_threshold],
    variance_explosion_reset PBig (by norm_num [PBig, variance_reset_threshold])⟩

end ClaimC3

section ClaimC4

variable {α : Type} [LinearOrderedField α]

lemma gateRun_le_19 (adapt : GateState α → Mat5 α × Mat3 α) :
    ∀ k, k ≤ 19 → gateRun adapt k = ⟨k, min k 50, Q0 α, R0 α⟩ := by
  intro k
  induction k with
  | zero =>
    intro _
    show gateInit α = _
    rw [gateInit]
    simp
  | succ k ih =>
    intro hk
    rw [gateRun, Function.iterate_succ_apply', ← gateRun, ih (by omega), gateTick]
    dsimp only
    split_ifs with h1 h2
    · simp only [GateState.mk.injEq, and_true, true_and]
      omega
    · exfalso
      omega
    · simp only [GateState.mk.injEq, and_true, true_and]
      omega

/-- C4. With the hard-coded `adaptation_interval = 10` (line 377) and
`min_observations_for_adaptation = 20` (lines 49, 172), the noise matrices
are exactly the seed values after each of ticks 1–19 — in particular the
gate at tick 10 is blocked by the window length — and tick 20 is the first
tick that invokes the adaptation body (whatever it computes), so `Q`/`R`
may first change at tick 20. -/
theorem adaptation_gating (adapt : GateState α → Mat5 α × Mat3 α) :
    (∀ k, 1 ≤ k → k ≤ 19 →
      (gateRun adapt k).q = Q0 α ∧ (gateRun adapt k).r = R0 α) ∧
      ((gateRun adapt 20).count % 10 = 0 ∧ 20 ≤ (gateRun adapt 20).wlen ∧
        (gateRun adapt 20).q = (adapt ⟨20, 20, Q0 α, R0 α⟩).1 ∧
        (gateRun adapt 20).r = (adapt ⟨20, 20, Q0 α, R0 α⟩).2) := by
  have h20 : gateRun adapt 20 =
      ⟨20, 20, (adapt ⟨20, 20, Q0 α, R0 α⟩).1, (adapt ⟨20, 20, Q0 α, R0 α⟩).2⟩ := by
    rw [gateRun, Function.iterate_succ_apply', ← gateRun, gateRun_le_19 adapt 19 (by omega),
      gateTick]
    dsimp only
    norm_num [Nat.min_def]
  refine ⟨fun k h1 h19 => ?_, ?_⟩
  · rw [gateRun_le_19 adapt k h19]
    exact ⟨rfl, rfl⟩
  · rw [h20]
    dsimp only
    norm_num

/-- Witness for C4 with the concrete adaptation body that zeroes both
matrices, checked at tick 7 and tick 20. -/
theorem adaptation_gating_witness :
    ((gateRun (fun _ => ((0 : Mat5 ℚ), (0 : Mat3 ℚ))) 7).q = Q0 ℚ ∧
      (gateRun (fun _ => ((0 : Mat5 ℚ), (0 : Mat3 ℚ))) 7).r = R0 ℚ) ∧
      ((gateRun (fun _ => ((0 : Mat5 ℚ), (0 : Mat3 ℚ))) 20).count % 10 = 0 ∧
        20 ≤ (gateRun (fun _ => ((0 : Mat5 ℚ), (0 : Mat3 ℚ))) 20).wlen ∧
        (gateRun (fun _ => ((0 : Mat5 ℚ), (0 : Mat3 ℚ))) 20).q = 0 ∧
        (gateRun (fun _ => ((0 : Mat5 ℚ), (0 : Mat3 ℚ))) 20).r = 0) :=
  ⟨(adaptation_gating _).1 7 (by norm_num) (by norm_num), (adaptation_gating _).2⟩

end ClaimC4

section ClaimC56

variable {α : Type} [LinearOrderedField α]

lemma win20_length : win20.length = 20 := by
  rw [win20, List.length_replicate]

lemma empCov_win20 : empCov win20 = 0 := by
  ext i j
  simp [empCov, win20]

lemma updateAdaptiveNoise_r_eval :
    (updateAdaptiveNoise win20 (Q0 ℚ) rBad 0 0).2 = floorR ((9/10 : ℚ) • rBad) := by
  rw [updateAdaptiveNoise, if_neg (by rw [win20_length]; norm_num), empCov_win20]
  rw [blendR]
  simp

lemma floorR_rBad_entry : floorR ((9/10 : ℚ) • rBad) 0 2 = 0 := by
  norm_num [floorR, rBad, Fin.ext_iff, Matrix.smul_apply,
    Matrix.cons_val_zero, Matrix.cons_val_one, Matrix.cons_val_two,
    Matrix.head_cons, Matrix.tail_cons]

lemma floorR_rBad_eigvec :
    floorR ((9/10 : ℚ) • rBad) *ᵥ vDiff3 = (min_variance ℚ - 1) • vDiff3 := by
  funext i
  fin_cases i <;>
    norm_num [floorR, rBad, vDiff3, min_variance, Matrix.mulVec, dotProduct,
      Fin.sum_univ_three, Fin.ext_iff, Matrix.smul_apply,
      Matrix.cons_val_zero, Matrix.cons_val_one, Matrix.cons_val_two,
      Matrix.head_cons, Matrix.tail_cons]

/-- C5, counterexample. The sanitization of the measurement noise is
`np.maximum(R, min_variance * eye(3))` (line 198): at a full window of zero
innovations and the symmetric input `rBad`, the revised `R` equals
`!![1e-6, 1, 0; 1, 1e-6, 0; 0, 0, 1e-6]`; its entry `(0,2)` is `0`, below
`min_variance`, and it has the eigenvalue `1e-6 - 1 < min_variance` with
eigenvector `(1,-1,0)` — so the revision neither enforces an elementwise
`min_variance` floor nor an eigenvalue floor. -/
theorem measurement_noise_revision_cex :
    ((updateAdaptiveNoise win20 (Q0 ℚ) rBad 0 0).2 0 2 = 0 ∧
      (updateAdaptiveNoise win20 (Q0 ℚ) rBad 0 0).2 *ᵥ vDiff3 =
        (min_variance ℚ - 1) • vDiff3) ∧
      ¬ (∀ (win : List (Vec3 ℚ)) (Q : Mat5 ℚ) (R : Mat3 ℚ) (y : Vec3 ℚ) (lam : ℚ),
          20 ≤ win.length →
          (∀ i j, min_variance ℚ ≤ (updateAdaptiveNoise win Q R y lam).2 i j) ∧
            ((updateAdaptiveNoise win Q R y lam).2)ᵀ =
              (updateAdaptiveNoise win Q R y lam).2 ∧
            (∀ (μ : ℚ) (v : Vec3 ℚ), v ≠ 0 →
              (updateAdaptiveNoise win Q R y lam).2 *ᵥ v = μ • v →
              min_variance ℚ ≤ μ)) := by
  refine ⟨⟨by rw [updateAdaptiveNoise_r_eval]; exact floorR_rBad_entry,
    by rw [updateAdaptiveNoise_r_eval]; exact floorR_rBad_eigvec⟩, fun h => ?_⟩
  have h02 := (h win20 (Q0 ℚ) rBad 0 0 (by rw [win20_length])).1 0 2
  rw [updateAdaptiveNoise_r_eval, floorR_rBad_entry] at h02
  rw [min_variance] at h02
  norm_num at h02

/-- C5, amended. After every adaptive revision with a full window, the
*diagonal* entries of `R` are at least `min_variance` and the off-diagonal
entries are at least `0` (the off-diagonal floor imposed by
`np.maximum(R, min_variance*eye(3))`); symmetry of `R` is preserved by the
revision (the empirical innovation covariance is symmetric) though not
enforced, and no eigenvalue floor is applied. -/
theorem measurement_noise_revision_bounds (win : List (Vec3 α)) (Q : Mat5 α)
    (R : Mat3 α) (y : Vec3 α) (lam : α) (h20 : 20 ≤ win.length) :
    (∀ i, min_variance α ≤ (updateAdaptiveNoise win Q R y lam).2 i i) ∧
      (∀ i j, i ≠ j → 0 ≤ (updateAdaptiveNoise win Q R y lam).2 i j) ∧
      (Rᵀ = R → ((updateAdaptiveNoise win Q R y lam).2)ᵀ =
        (updateAdaptiveNoise win Q R y lam).2) := by
  rw [updateAdaptiveNoise, if_neg (not_lt.mpr h20)]
  refine ⟨fun i => ?_, fun i j hij => ?_, fun hR => ?_⟩
  · show min_variance α ≤ max _ _
    rw [if_pos rfl]
    exact le_max_right _ _
  · show (0 : α) ≤ max _ _
    rw [if_neg hij]
    exact le_max_right _ _
  · have hC : (empCov win)ᵀ = empCov win := by
      ext i j
      rw [Matrix.transpose_apply]
      simp only [empCov, Matrix.of_apply]
      rw [List.map_congr_left (fun (w : Vec3 α) _ => by ring :
        ∀ w ∈ win, (w j - (List.map (fun v => v j) win).sum / (win.length : α)) *
            (w i - (List.map (fun v => v i) win).sum / (win.length : α)) =
          (w i - (List.map (fun v => v i) win).sum / (win.length : α)) *
            (w j - (List.map (fun v => v j) win).sum / (win.length : α)))]
    have hB : (blendR R (empCov win))ᵀ = blendR R (empCov win) := by
      rw [blendR, Matrix.transpose_add, Matrix.transpose_smul,
        Matrix.transpose_smul, hR, hC]
    ext i j
    rw [Matrix.transpose_apply]
    simp only [floorR, Matrix.of_apply]
    have hji : blendR R (empCov win) j i = blendR R (empCov win) i j := by
      conv_lhs => rw [← hB]
      rw [Matrix.transpose_apply]
    rw [hji]
    by_cases hij : i = j
    · rw [if_pos hij.symm, if_pos hij]
    · rw [if_neg (fun hh => hij hh.symm), if_neg hij]

/-- Witness for the amended C5 at a full window of zero innovations. -/
theorem measurement_noise_revision_bounds_witness :
    20 ≤ win20.length ∧
      ((∀ i, min_variance ℚ ≤ (updateAdaptiveNoise win20 (Q0 ℚ) rBad 0 0).2 i i) ∧
        (∀ i j, i ≠ j → 0 ≤ (updateAdaptiveNoise win20 (Q0 ℚ) rBad 0 0).2 i j) ∧
        (rBadᵀ = rBad → ((updateAdaptiveNoise win20 (Q0 ℚ) rBad 0 0).2)ᵀ =
          (updateAdaptiveNoise win20 (Q0 ℚ) rBad 0 0).2)) :=
  ⟨by rw [win20_length],
    measurement_noise_revision_bounds win20 (Q0 ℚ) rBad 0 0 (by rw [win20_length])⟩

end ClaimC56

section ClaimC6

variable {α : Type} [LinearOrderedField α]

lemma symmetrize_diag (M : Mat5 α) (i : Fin 5) : symmetrize M i i = M i i := by
  simp only [symmetrize, Matrix.smul_apply, Matrix.add_apply, Matrix.transpose_apply,
    smul_eq_mul]
  ring

lemma meanAbs_yMid : meanAbs yMid = 7/100 := by
  have h0 : yMid 0 = 7/100 := rfl
  have h1 : yMid 1 = 7/100 := rfl
  have h2 : yMid 2 = 7/100 := rfl
  rw [meanAbs, h0, h1, h2, abs_of_pos (by norm_num : (0:ℚ) < 7/100)]
  norm_num

lemma adaptScaleQ_qFlat : adaptScaleQ qFlat yMid = qFlat := by
  rw [adaptScaleQ, meanAbs_yMid, if_neg (by norm_num), if_neg (by norm_num)]

lemma adaptQ3_of_fixed {α : Type} [LinearOrderedField α] {Q : Mat5 α} {y : Vec3 α}
    (hQt : Qᵀ = Q)
    (hb : ∀ i j, min_process_noise α ≤ Q i j ∧ Q i j ≤ max_process_noise α)
    (hy : adaptScaleQ Q y = Q) : adaptQ3 Q y = Q := by
  rw [adaptQ3, hy]
  have hc : clipM Q (min_process_noise α) (max_process_noise α) = Q := by
    ext i j
    exact clip_eq_self (hb i j).1 (hb i j).2
  rw [hc, symmetrize, hQt, ← two_smul α Q, smul_smul]
  norm_num

lemma qFlat_bounds :
    ∀ i j, min_process_noise ℚ ≤ qFlat i j ∧ qFlat i j ≤ max_process_noise ℚ := by
  intro i j
  constructor <;> norm_num [qFlat, min_process_noise, max_process_noise]

lemma adaptQ3_qFlat : adaptQ3 qFlat yMid = qFlat :=
  adaptQ3_of_fixed rfl qFlat_bounds adaptScaleQ_qFlat

lemma qFlat_mulVec_vDiff : qFlat *ᵥ vDiff = (0 : ℚ) • vDiff := by
  funext i
  simp [qFlat, vDiff, Matrix.mulVec, dotProduct, Fin.sum_univ_five,
    Matrix.cons_val_zero, Matrix.cons_val_one, Matrix.cons_val_two,
    Matrix.cons_val_three, Matrix.cons_val_four, Matrix.head_cons, Matrix.tail_cons]

lemma qFlat_quad (v : Vec5 ℚ) : v ⬝ᵥ qFlat *ᵥ v = (1/10) * (∑ i, v i)^2 := by
  simp only [qFlat, Matrix.mulVec, dotProduct, Matrix.of_apply, Fin.sum_univ_five]
  ring

lemma qFlat_minEig : IsMinEig qFlat 0 := by
  constructor
  · refine ⟨vDiff, ?_, qFlat_mulVec_vDiff⟩
    intro h
    have h0 := congrFun h 0
    simp [vDiff] at h0
  · intro μ v hv he
    have hq := qFlat_quad v
    rw [he, dotProduct_smul, smul_eq_mul] at hq
    by_contra hneg
    push_neg at hneg
    have hp := dotProduct_self_pos hv
    nlinarith [sq_nonneg (∑ i, v i)]

lemma q_cex_entry :
    (updateAdaptiveNoise win20 qFlat (R0 ℚ) yMid 0).1 0 0 = 1/10 + 1/1000000 := by
  rw [updateAdaptiveNoise, if_neg (by rw [win20_length]; norm_num)]
  dsimp only
  rw [adaptQ3_qFlat, qShift, if_pos (by rw [min_process_noise]; norm_num)]
  show qFlat 0 0 + _ = _
  simp [qFlat, min_process_noise, Matrix.one_apply]

/-- C6, counterexample. The eigenvalue-floor shift on `Q` (lines 202–204)
runs after the elementwise clip to `[min_process_noise, max_process_noise]`
(line 197): at the all-`0.1` process noise `qFlat` (which is singular, with
minimum eigenvalue `0`) the shift adds `1e-6` to the diagonal, leaving
`Q[0,0] = 0.1 + 1e-6 > max_process_noise`. -/
theorem process_noise_diag_cex :
    ((updateAdaptiveNoise win20 qFlat (R0 ℚ) yMid 0).1 0 0 = 1/10 + 1/1000000) ∧
      ¬ (∀ (win : List (Vec3 ℚ)) (Q : Mat5 ℚ) (R : Mat3 ℚ) (y : Vec3 ℚ) (lam : ℚ),
          20 ≤ win.length → IsMinEig (adaptQ3 Q y) lam →
          ∀ i, min_process_noise ℚ ≤ (updateAdaptiveNoise win Q R y lam).1 i i ∧
            (updateAdaptiveNoise win Q R y lam).1 i i ≤ max_process_noise ℚ) := by
  refine ⟨q_cex_entry, fun h => ?_⟩
  have h00 := (h win20 qFlat (R0 ℚ) yMid 0 (by rw [win20_length])
    (by rw [adaptQ3_qFlat]; exact qFlat_minEig) 0).2
  rw [q_cex_entry, max_process_noise] at h00
  norm_num at h00

/-- C6, amended. After every adaptive revision with a full window, the
diagonal entries of `Q` are at least `min_process_noise` and at most
`max_process_noise + max 0 (min_process_noise - lam)` where `lam` is the
minimum eigenvalue reported for the clipped symmetrized `Q`: the clip
(line 197) enforces `[min_process_noise, max_process_noise]`, but the final
eigenvalue-floor shift (lines 202–204) then adds `min_process_noise - lam`
to the diagonal and can push it above `max_process_noise`. -/
theorem process_noise_diag_bounds (win : List (Vec3 α)) (Q : Mat5 α)
    (R : Mat3 α) (y : Vec3 α) (lam : α) (h20 : 20 ≤ win.length) :
    ∀ i, min_process_noise α ≤ (updateAdaptiveNoise win Q R y lam).1 i i ∧
      (updateAdaptiveNoise win Q R y lam).1 i i ≤
        max_process_noise α + max 0 (min_process_noise α - lam) := by
  intro i
  rw [updateAdaptiveNoise, if_neg (not_lt.mpr h20)]
  have hd : adaptQ3 Q y i i =
      clip (adaptScaleQ Q y i i) (min_process_noise α) (max_process_noise α) := by
    rw [adaptQ3, symmetrize_diag]
    rfl
  have hlo : min_process_noise α ≤ adaptQ3 Q y i i := by
    rw [hd]
    exact lo_le_clip _ (by rw [min_process_noise, max_process_noise]; norm_num)
  have hhi : adaptQ3 Q y i i ≤ max_process_noise α := by
    rw [hd]
    exact clip_le_hi _ _ _
  show min_process_noise α ≤ qShift (adaptQ3 Q y) lam i i ∧ _
  rw [qShift]
  split_ifs with hlam
  · have he : (adaptQ3 Q y + (min_process_noise α - lam) • (1 : Mat5 α)) i i =
        adaptQ3 Q y i i + (min_process_noise α - lam) := by
      simp [Matrix.add_apply, Matrix.smul_apply, Matrix.one_apply]
    rw [he]
    have hmax : max 0 (min_process_noise α - lam) = min_process_noise α - lam :=
      max_eq_right (by linarith)
    rw [hmax]
    constructor <;> linarith
  · have hmax : (0 : α) ≤ max 0 (min_process_noise α - lam) := le_max_left _ _
    constructor <;> linarith

/-- Witness for the amended C6 at the all-`0.1` process noise. -/
theorem process_noise_diag_bounds_witness :
    20 ≤ win20.length ∧
      (∀ i, min_process_noise ℚ ≤ (updateAdaptiveNoise win20 qFlat (R0 ℚ) yMid 0).1 i i ∧
        (updateAdaptiveNoise win20 qFlat (R0 ℚ) yMid 0).1 i i ≤
          max_process_noise ℚ + max 0 (min_process_noise ℚ - 0)) :=
  ⟨by rw [win20_length],
    process_noise_diag_bounds win20 qFlat (R0 ℚ) yMid 0 (by rw [win20_length])⟩

end ClaimC6

section ClaimC7

lemma ffillGo_some (c : ℚ) (t : List (Option ℚ)) :
    (∀ o ∈ ffillGo (some c) t, o.isSome = true) ∧
      (∀ (i : ℕ) (v : ℚ), t.get? i = some (some v) →
        (ffillGo (some c) t).get? i = some (some v)) := by
  induction t generalizing c with
  | nil =>
    refine ⟨fun o ho => absurd ho (List.not_mem_nil o), fun i v hv => ?_⟩
    simp at hv
  | cons a t ih =>
    cases a with
    | none =>
      rw [show ffillGo (some c) (none :: t) = some c :: ffillGo (some c) t from rfl]
      constructor
      · intro o ho
        rcases List.mem_cons.mp ho with rfl | ho
        · rfl
        · exact (ih c).1 o ho
      · intro i v hv
        cases i with
        | zero =>
          rw [List.get?_cons_zero] at hv
          exact absurd (Option.some.inj hv) (by simp)
        | succ i =>
          rw [List.get?_cons_succ] at hv ⊢
          exact (ih c).2 i v hv
    | some b =>
      rw [show ffillGo (some c) (some b :: t) = some b :: ffillGo (some b) t from rfl]
      constructor
      · intro o ho
        rcases List.mem_cons.mp ho with rfl | ho
        · rfl
        · exact (ih b).1 o ho
      · intro i v hv
        cases i with
        | zero =>
          rw [List.get?_cons_zero] at hv ⊢
          exact hv
        | succ i =>
          rw [List.get?_cons_succ] at hv ⊢
          exact (ih b).2 i v hv

lemma xsCex_cond :
    (nanCount xsCex : ℚ) / (xsCex.length : ℚ) < missing_value_threshold := by
  have h1 : nanCount xsCex = 1 := rfl
  have h2 : xsCex.length = 20 := rfl
  rw [h1, h2, missing_value_threshold]
  norm_num

lemma fill_missing_xsCex :
    fill_missing xsCex = none :: List.replicate 19 (some 1) := by
  rw [fill_missing, if_pos xsCex_cond]
  rfl

/-- C7, counterexample. `fill_missing` on a 20-element series whose first
element is `NaN` (5% missing, below the 15% threshold) does not return a
`NaN`-free series: the numpy index trick maps every position before the
first valid value to index `0`, whose value is the leading `NaN` itself, so
the output still starts with `NaN`. -/
theorem fill_missing_leading_nan_cex :
    none ∈ fill_missing xsCex ∧
      ¬ (∀ xs : List (Option ℚ),
          (nanCount xs : ℚ) / (xs.length : ℚ) < missing_value_threshold →
          (∀ o ∈ fill_missing xs, o.isSome = true) ∧
            (∀ (i : ℕ) (v : ℚ), xs.get? i = some (some v) →
              (fill_missing xs).get? i = some (some v))) := by
  have hmem : none ∈ fill_missing xsCex := by
    rw [fill_missing_xsCex]
    exact List.mem_cons_self _ _
  refine ⟨hmem, fun h => ?_⟩
  have hns := (h xsCex xsCex_cond).1 none hmem
  simp at hns

/-- C7, amended. If the missing fraction is below the threshold *and the
first element of the series is valid*, forward filling returns a `NaN`-free
series in which every position that was not a gap keeps its original
value. -/
theorem fill_missing_forward_fill (x1 : ℚ) (t : List (Option ℚ))
    (h : (nanCount (some x1 :: t) : ℚ) / (((some x1 :: t) : List (Option ℚ)).length : ℚ) <
      missing_value_threshold) :
    (∀ o ∈ fill_missing (some x1 :: t), o.isSome = true) ∧
      (∀ (i : ℕ) (v : ℚ), (some x1 :: t).get? i = some (some v) →
        (fill_missing (some x1 :: t)).get? i = some (some v)) := by
  rw [fill_missing, if_pos h,
    show ffill (some x1 :: t) = some x1 :: ffillGo (some x1) t from rfl]
  constructor
  · intro o ho
    rcases List.mem_cons.mp ho with rfl | ho
    · rfl
    · exact (ffillGo_some x1 t).1 o ho
  · intro i v hv
    cases i with
    | zero =>
      rw [List.get?_cons_zero] at hv ⊢
      exact hv
    | succ i =>
      rw [List.get?_cons_succ] at hv ⊢
      exact (ffillGo_some x1 t).2 i v hv

/-- Witness for the amended C7 at a 7-element series with one interior
`NaN` (fraction `1/7 < 3/20`). -/
theorem fill_missing_forward_fill_witness :
    ((nanCount (some 1 :: tWit) : ℚ) / (((some 1 :: tWit) : List (Option ℚ)).length : ℚ) <
      missing_value_threshold) ∧
      ((∀ o ∈ fill_missing (some 1 :: tWit), o.isSome = true) ∧
        (∀ (i : ℕ) (v : ℚ), (some 1 :: tWit).get? i = some (some v) →
          (fill_missing (some 1 :: tWit)).get? i = some (some v))) := by
  have hc : (nanCount (some 1 :: tWit) : ℚ) /
      (((some 1 :: tWit) : List (Option ℚ)).length : ℚ) < missing_value_threshold := by
    have h1 : nanCount (some 1 :: tWit) = 1 := rfl
    have h2 : ((some 1 :: tWit) : List (Option ℚ)).length = 7 := rfl
    rw [h1, h2, missing_value_threshold]
    norm_num
  exact ⟨hc, fill_missing_forward_fill 1 tWit hc⟩

end ClaimC7

section ClaimC8

lemma meanL_spec8 : meanL (spec8 ℝ) = 13/10 := by
  norm_num [meanL, spec8, List.sum_cons, List.sum_nil]

lemma varL_spec8 : varL (spec8 ℝ) = 2346/100 := by
  norm_num [varL, meanL, spec8, List.sum_cons, List.sum_nil]

lemma meanL_allFives : meanL (allFives ℝ) = 5 := by
  norm_num [meanL, allFives, List.sum_cons, List.sum_nil]

lemma varL_allFives : varL (allFives ℝ) = 0 := by
  norm_num [varL, meanL, allFives, List.sum_cons, List.sum_nil]

lemma clamp_allFives :
    clampSeries 0 1 (capOutliersWith 0 (allFives ℝ)) = [1, 1, 1, 1, 1] := by
  rw [capOutliersWith, clampSeries, meanL_allFives]
  have hcap : clip (5:ℝ) (5 - 3 * 0) (5 + 3 * 0) = 5 :=
    clip_eq_self (by norm_num) (by norm_num)
  have hcl : clip (5:ℝ) 0 1 = 1 := by
    rw [clip, max_eq_left (by norm_num), min_eq_right (by norm_num)]
  simp only [allFives, List.map_cons, List.map_nil, hcap, hcl]

/-- C8, counterexample. After the domain clamp the values need not lie in
`[mean - 3*std, mean + 3*std] ∩ [0,1]`: for the constant series of fives the
standard deviation is `0`, the cap interval collapses to `{5}`, and the
domain clamp maps every value to `1 ∉ [5,5]` — the intersection is empty. -/
theorem cap_outliers_intersection_cex :
    ¬ (∀ (xs : List ℝ) (s : ℝ), 0 ≤ s → s ^ 2 = varL xs →
        (∀ v ∈ capOutliersWith s xs, meanL xs - 3 * s ≤ v ∧ v ≤ meanL xs + 3 * s) ∧
          (∀ v ∈ clampSeries 0 1 (capOutliersWith s xs),
            (meanL xs - 3 * s ≤ v ∧ v ≤ meanL xs + 3 * s) ∧ 0 ≤ v ∧ v ≤ 1)) := by
  intro h
  have hmem : (1:ℝ) ∈ clampSeries 0 1 (capOutliersWith 0 (allFives ℝ)) := by
    rw [clamp_allFives]
    exact List.mem_cons_self _ _
  have h1 := ((h (allFives ℝ) 0 le_rfl (by rw [varL_allFives]; norm_num)).2 1 hmem).1.1
  rw [meanL_allFives] at h1
  norm_num at h1

/-- C8, amended. `cap_outliers` clips every element to
`[mean - 3*std, mean + 3*std]` (for any nonnegative standard deviation), the
subsequent domain clamp yields values in `[lo, hi]`, and for the particular
series `[0.5, 0.5, 10, 0.5, -5]` the clamped result is `[0.5, 0.5, 1, 0.5, 0]`
with the whole interval `[0,1]` contained in `[mean - 3σ, mean + 3σ]`, so
there every resulting value does lie in the intersection. -/
theorem cap_outliers_bounds :
    (∀ (xs : List ℝ) (s : ℝ), 0 ≤ s → ∀ v ∈ capOutliersWith s xs,
        meanL xs - 3 * s ≤ v ∧ v ≤ meanL xs + 3 * s) ∧
      (∀ (lo hi : ℝ), lo ≤ hi → ∀ (xs : List ℝ), ∀ v ∈ clampSeries lo hi xs,
        lo ≤ v ∧ v ≤ hi) ∧
      (∀ s : ℝ, 0 ≤ s → s ^ 2 = varL (spec8 ℝ) →
        clampSeries 0 1 (capOutliersWith s (spec8 ℝ)) = [1/2, 1/2, 1, 1/2, 0] ∧
          meanL (spec8 ℝ) - 3 * s ≤ 0 ∧ 1 ≤ meanL (spec8 ℝ) + 3 * s) := by
  refine ⟨?_, ?_, ?_⟩
  · intro xs s hs v hv
    rcases List.mem_map.mp hv with ⟨x, _, rfl⟩
    have hlh : meanL xs - 3 * s ≤ meanL xs + 3 * s := by linarith
    exact ⟨lo_le_clip _ hlh, clip_le_hi _ _ _⟩
  · intro lo hi hlh xs v hv
    rcases List.mem_map.mp hv with ⟨x, _, rfl⟩
    exact ⟨lo_le_clip _ hlh, clip_le_hi _ _ _⟩
  · intro s hs hsq
    rw [varL_spec8] at hsq
    have hs29 : (29:ℝ)/10 ≤ s := by nlinarith
    have e1 : clip (1/2 : ℝ) (13/10 - 3 * s) (13/10 + 3 * s) = 1/2 :=
      clip_eq_self (by linarith) (by linarith)
    have e2 : clip (10 : ℝ) (13/10 - 3 * s) (13/10 + 3 * s) = 10 :=
      clip_eq_self (by linarith) (by linarith)
    have e3 : clip (-5 : ℝ) (13/10 - 3 * s) (13/10 + 3 * s) = -5 :=
      clip_eq_self (by linarith) (by linarith)
    have f1 : clip (1/2 : ℝ) 0 1 = 1/2 := clip_eq_self (by norm_num) (by norm_num)
    have f2 : clip (10 : ℝ) 0 1 = 1 := by
      rw [clip, max_eq_left (by norm_num), min_eq_right (by norm_num)]
    have f3 : clip (-5 : ℝ) 0 1 = 0 := by
      rw [clip, max_eq_right (by norm_num), min_eq_left (by norm_num)]
    refine ⟨?_, by rw [meanL_spec8]; linarith, by rw [meanL_spec8]; linarith⟩
    rw [capOutliersWith, clampSeries, meanL_spec8]
    simp only [spec8, List.map_cons, List.map_nil, e1, e2, e3, f1, f2, f3]

/-- Witness for the amended C8 at the exact standard deviation
`σ = √23.46` of the example series. -/
theorem cap_outliers_bounds_witness :
    (0 ≤ Real.sqrt (2346/100) ∧ Real.sqrt (2346/100) ^ 2 = varL (spec8 ℝ)) ∧
      (clampSeries 0 1 (capOutliersWith (Real.sqrt (2346/100)) (spec8 ℝ)) =
          [1/2, 1/2, 1, 1/2, 0] ∧
        meanL (spec8 ℝ) - 3 * Real.sqrt (2346/100) ≤ 0 ∧
          1 ≤ meanL (spec8 ℝ) + 3 * Real.sqrt (2346/100)) := by
  have hsq : Real.sqrt (2346/100) ^ 2 = varL (spec8 ℝ) := by
    rw [varL_spec8]
    exact Real.sq_sqrt (by norm_num)
  exact ⟨⟨Real.sqrt_nonneg _, hsq⟩,
    cap_outliers_bounds.2.2 _ (Real.sqrt_nonneg _) hsq⟩

end ClaimC8

section Determinism

variable {α : Type} [LinearOrderedField α]

/-- Well-definedness of eigenvalue-function application: any two orthogonal
eigendecompositions of the same matrix reconstruct to the same matrix after
applying a function `f` to the eigenvalues. This is why the tie-breaks of
`np.linalg.eigh` cannot make the tick nondeterministic. -/
lemma isEigh_recon_eq (f : α → α) {M V1 V2 : Mat5 α} {d1 d2 : Vec5 α}
    (h1 : IsEigh M V1 d1) (h2 : IsEigh M V2 d2) :
    V1 * Matrix.diagonal (fun i => f (d1 i)) * V1ᵀ =
      V2 * Matrix.diagonal (fun i => f (d2 i)) * V2ᵀ := by
  obtain ⟨hV1, hM1⟩ := h1
  obtain ⟨hV2, hM2⟩ := h2
  have hV1R : V1 * V1ᵀ = 1 := Matrix.mul_eq_one_comm.mp hV1
  have hV2R : V2 * V2ᵀ = 1 := Matrix.mul_eq_one_comm.mp hV2
  have hMM : V1 * Matrix.diagonal d1 * V1ᵀ = V2 * Matrix.diagonal d2 * V2ᵀ :=
    hM1.symm.trans hM2
  have hUD : (V2ᵀ * V1) * Matrix.diagonal d1 = Matrix.diagonal d2 * (V2ᵀ * V1) := by
    calc (V2ᵀ * V1) * Matrix.diagonal d1
        = V2ᵀ * (V1 * Matrix.diagonal d1 * V1ᵀ) * V1 := by
          simp only [Matrix.mul_assoc]
          rw [hV1, Matrix.mul_one]
      _ = V2ᵀ * (V2 * Matrix.diagonal d2 * V2ᵀ) * V1 := by rw [hMM]
      _ = Matrix.diagonal d2 * (V2ᵀ * V1) := by
          simp only [Matrix.mul_assoc]
          rw [← Matrix.mul_assoc V2ᵀ V2, hV2, Matrix.one_mul]
  have hent : ∀ i j, (V2ᵀ * V1) i j * f (d1 j) = f (d2 i) * (V2ᵀ * V1) i j := by
    intro i j
    have h := congrFun (congrFun hUD i) j
    rw [Matrix.mul_diagonal, Matrix.diagonal_mul] at h
    rcases eq_or_ne ((V2ᵀ * V1) i j) 0 with h0 | h0
    · rw [h0, zero_mul, mul_zero]
    · have hde : d1 j = d2 i := by
        have h' : (V2ᵀ * V1) i j * d1 j = (V2ᵀ * V1) i j * d2 i := by
          rw [h, mul_comm]
        exact mul_left_cancel₀ h0 h'
      rw [hde, mul_comm]
  have hUDf : (V2ᵀ * V1) * Matrix.diagonal (fun i => f (d1 i)) =
      Matrix.diagonal (fun i => f (d2 i)) * (V2ᵀ * V1) := by
    ext i j
    rw [Matrix.mul_diagonal, Matrix.diagonal_mul]
    exact hent i j
  calc V1 * Matrix.diagonal (fun i => f (d1 i)) * V1ᵀ
      = V2 * ((V2ᵀ * V1) * Matrix.diagonal (fun i => f (d1 i))) * V1ᵀ := by
        simp only [Matrix.mul_assoc]
        rw [← Matrix.mul_assoc V2 V2ᵀ, hV2R, Matrix.one_mul]
    _ = V2 * (Matrix.diagonal (fun i => f (d2 i)) * (V2ᵀ * V1)) * V1ᵀ := by rw [hUDf]
    _ = V2 * Matrix.diagonal (fun i => f (d2 i)) * V2ᵀ := by
        simp only [Matrix.mul_assoc]
        rw [hV1R, Matrix.mul_one]

/-- Any two eigendecompositions of the hardened covariance reconstruct to
the same reconditioned covariance. -/
lemma eighRecon_eq_of_isEigh {M V1 V2 : Mat5 α} {d1 d2 : Vec5 α}
    (h1 : IsEigh M V1 d1) (h2 : IsEigh M V2 d2) :
    eighRecon V1 d1 = eighRecon V2 d2 :=
  isEigh_recon_eq (fun x => clip x (min_variance α) (max_variance α)) h1 h2

/-- The minimum eigenvalue reported by `np.linalg.eigvalsh` is unique. -/
lemma isMinEig_unique {M : Mat5 α} {a b : α} (ha : IsMinEig M a)
    (hb : IsMinEig M b) : a = b := by
  obtain ⟨⟨va, hva, hMa⟩, hamin⟩ := ha
  obtain ⟨⟨vb, hvb, hMb⟩, hbmin⟩ := hb
  exact le_antisymm (hamin b vb hvb hMb) (hbmin a va hva hMa)

lemma tickRel_det {sqrtO : α → α} {s : KState α} {z : Vec3 α}
    {r1 r2 : KState α × TickOut α}
    (h1 : TickRel sqrtO s z r1) (h2 : TickRel sqrtO s z r2) : r1 = r2 := by
  cases h1 with
  | step V1 d1 qr1 hE1 hA1 =>
    cases h2 with
    | step V2 d2 qr2 hE2 hA2 =>
      have hP : eighRecon V1 d1 = eighRecon V2 d2 := eighRecon_eq_of_isEigh hE1 hE2
      have hQR : qr1 = qr2 := by
        simp only [AdaptChoice] at hA1 hA2
        split_ifs at hA1 hA2 with hg
        · obtain ⟨lam1, hm1, he1⟩ := hA1
          obtain ⟨lam2, hm2, he2⟩ := hA2
          rw [he1, he2, isMinEig_unique hm1 hm2]
        · rw [hA1, hA2]
      rw [hP, hQR]

lemma ticksRel_det {sqrtO : α → α} {s : KState α} {zs : List (Vec3 α)}
    {r1 r2 : KState α × List (TickOut α)}
    (h1 : TicksRel sqrtO s zs r1) (h2 : TicksRel sqrtO s zs r2) : r1 = r2 := by
  induction h1 generalizing r2 with
  | nil s => cases h2; rfl
  | cons s z zs s1 o1 s2 os hT hTs ih =>
    cases h2 with
    | cons _ _ _ s1' o1' s2' os' hT' hTs' =>
      have hpair := tickRel_det hT hT'
      have hs1 : s1 = s1' := congrArg Prod.fst hpair
      have ho1 : o1 = o1' := congrArg Prod.snd hpair
      subst hs1
      have hrest := ih hTs'
      have hs2 : s2 = s2' := congrArg Prod.fst hrest
      have hos : os = os' := congrArg Prod.snd hrest
      rw [ho1, hs2, hos]

lemma predictRel_det {sqrtO : α → α} {s : KState α} {ins : List (List α)}
    {r1 r2 : KState α × Except PredictError (List (TickOut α))}
    (h1 : PredictRel sqrtO s ins r1) (h2 : PredictRel sqrtO s ins r2) : r1 = r2 := by
  cases h1 with
  | uninit _ h =>
    cases h2 with
    | uninit _ _ => rfl
    | arity _ h' _ => rw [h] at h'; exact absurd h' (by simp)
    | ok c m l s2 os h' hT => rw [h] at h'; exact absurd h' (by simp)
  | arity _ h hn =>
    cases h2 with
    | uninit _ h' => rw [h'] at h; exact absurd h (by simp)
    | arity _ _ _ => rfl
    | ok c m l s2 os h' hT => exact absurd rfl hn
  | ok c m l s2 os h hT =>
    cases h2 with
    | uninit _ h' => rw [h'] at h; exact absurd h (by simp)
    | arity _ _ hn => exact absurd rfl hn
    | ok _ _ _ s2' os' h' hT' =>
      have hpair := ticksRel_det hT hT'
      have hs : s2 = s2' := congrArg Prod.fst hpair
      have ho : os = os' := congrArg Prod.snd hpair
      rw [hs, ho]

lemma seqRel_det {sqrtO : α → α} {s : KState α} {bs : List (List (List α))}
    {r1 r2 : KState α × List (Except PredictError (List (TickOut α)))}
    (h1 : SeqRel sqrtO s bs r1) (h2 : SeqRel sqrtO s bs r2) : r1 = r2 := by
  induction h1 generalizing r2 with
  | nil s => cases h2; rfl
  | cons s b bs s1 res s2 rs hP hS ih =>
    cases h2 with
    | cons _ _ _ s1' res' s2' rs' hP' hS' =>
      have hpair := predictRel_det hP hP'
      have hs1 : s1 = s1' := congrArg Prod.fst hpair
      have hres : res = res' := congrArg Prod.snd hpair
      subst hs1
      have hrest := ih hS'
      have hs2 : s2 = s2' := congrArg Prod.fst hrest
      have hrs : rs = rs' := congrArg Prod.snd hrest
      rw [hres, hs2, hrs]

end Determinism

section ClaimC9

/-- C9. A `predict` call on an uninitialized estimator yields the
uninitialized-estimator error (model.py line 278), and a call with an input
count different from 3 yields the input-arity error (line 302); in both
cases the error propagates to the caller and the returned estimator state is
exactly the input state — both checks run before any mutation of
`x`, `P`, `Q`, `R`, the innovation window or the observation counter. -/
theorem predict_error_paths (sqrtO : ℚ → ℚ) (s : KState ℚ) (ins : List (List ℚ))
    (r : KState ℚ × Except PredictError (List (TickOut ℚ))) :
    (s.initialized = false → PredictRel sqrtO s ins r →
      r = (s, .error .uninitialized)) ∧
      (s.initialized = true → ins.length ≠ 3 → PredictRel sqrtO s ins r →
        r = (s, .error .arity)) := by
  constructor
  · intro hinit hrel
    cases hrel with
    | uninit _ _ => rfl
    | arity _ h _ => rw [hinit] at h; exact absurd h (by simp)
    | ok c m l s2 os h hT => rw [hinit] at h; exact absurd h (by simp)
  · intro hinit hn hrel
    cases hrel with
    | uninit _ h => rw [hinit] at h; exact absurd h (by simp)
    | arity _ _ _ => rfl
    | ok c m l s2 os h hT => exact absurd rfl hn

/-- Witness for C9: the uninitialized call and a 0-series call both return
the untouched state with the respective error. -/
theorem predict_error_paths_witness :
    ((sUninit, Except.error PredictError.uninitialized) =
        ((sUninit, Except.error PredictError.uninitialized) :
          KState ℚ × Except PredictError (List (TickOut ℚ)))) ∧
      ((initState ℚ, Except.error PredictError.arity) =
        ((initState ℚ, Except.error PredictError.arity) :
          KState ℚ × Except PredictError (List (TickOut ℚ)))) :=
  ⟨(predict_error_paths (fun x => x) sUninit [] _).1 rfl (.uninit [] rfl),
    (predict_error_paths (fun x => x) (initState ℚ) [] _).2 rfl (by decide)
      (.arity [] rfl (by decide))⟩

end ClaimC9

section ClaimC10

/-- C10. The estimator is deterministic: two freshly loaded instances fed
the same sequence of input batches (with the same deterministic library
primitives: the square-root function of `np.linalg.norm`, and eigensolvers
satisfying `IsEigh`/`IsMinEig` — whose tie-breaks provably cannot influence
the result) produce identical per-tick output series and identical final
internal state `(x, P, Q, R, innovation window, observation counter)`. -/
theorem estimator_deterministic (sqrtO : ℝ → ℝ) (batches : List (List (List ℝ)))
    (r1 r2 : KState ℝ × List (Except PredictError (List (TickOut ℝ))))
    (h1 : SeqRel sqrtO (initState ℝ) batches r1)
    (h2 : SeqRel sqrtO (initState ℝ) batches r2) : r1 = r2 :=
  seqRel_det h1 h2

/-- Witness for C10 at the empty batch sequence. -/
theorem estimator_deterministic_witness :
    ((initState ℝ, ([] : List (Except PredictError (List (TickOut ℝ))))) =
      (initState ℝ, [])) :=
  estimator_deterministic (fun x => x) [] _ _ (.nil _) (.nil _)

end ClaimC10

end KalmanSpec
